import Mathlib

/-! Verification of a two-layer sigmoid network with a binary cross-entropy
objective: the forward pass, the hand-written backward pass, and the
gradient-descent training loop of the backpropagation tutorial notebook,
embedded over exact real arithmetic with matrices as lists of rows. -/

namespace Backprop

noncomputable section

/-- Logistic sigmoid, the expit function the notebook imports from scipy. -/
def sigmoid (x : ℝ) : ℝ := 1 / (1 + Real.exp (-x))

/-- Dot product of two vectors, as np.dot on two 1-D arrays. -/
def dotp (a b : List ℝ) : ℝ := (List.zipWith (fun x y => x * y) a b).sum

/-- Column count of a matrix read off its first row; for the nonempty
rectangular arrays the notebook manipulates this is the shared row length. -/
def headLen (A : List (List ℝ)) : ℕ := (A.headD []).length

/-- Product of the transpose of A with vector v, as np.dot(A.T, v):
entry j is the sum over rows n of A n j times v n. -/
def matTvec (A : List (List ℝ)) (v : List ℝ) : List ℝ :=
  (List.range (headLen A)).map
    (fun j => ((A.zip v).map (fun p => p.1.getD j 0 * p.2)).sum)

/-- Product of the transpose of A with B, as np.dot(A.T, B):
entry (j, k) is the sum over rows n of A n j times B n k. -/
def matTmat (A B : List (List ℝ)) : List (List ℝ) :=
  (List.range (headLen A)).map (fun j =>
    (List.range (headLen B)).map (fun k =>
      ((A.zip B).map (fun p => p.1.getD j 0 * p.2.getD k 0)).sum))

/-- Outer product of a column vector with a row vector, as
np.dot(u.reshape(N, 1), v.reshape(1, h)). -/
def outerProd (u v : List ℝ) : List (List ℝ) :=
  u.map (fun c => v.map (fun x => c * x))

/-- The four trainable tensors of the network, the weights dictionary of the
notebook. The gradients dictionary returned by the backward pass carries one
tensor per parameter under the same keys, so it reuses this record. -/
structure Weights where
  W1 : List (List ℝ)
  b1 : List ℝ
  W2 : List ℝ
  b2 : ℝ

/-- forward_propagation from the notebook: Z1 = X W1^T + b1 with the bias
broadcast across rows, H = sigmoid Z1 elementwise, Z2 = H W2^T + b2,
Y = sigmoid Z2, returned as (Y, Z2, H, Z1). -/
def forward_propagation (X : List (List ℝ)) (w : Weights) :
    List ℝ × List ℝ × List (List ℝ) × List (List ℝ) :=
  let Z1 := X.map (fun x => List.zipWith (fun wr b => dotp x wr + b) w.W1 w.b1)
  let H := Z1.map (fun z => z.map sigmoid)
  let Z2 := H.map (fun hr => dotp hr w.W2 + w.b2)
  let Y := Z2.map sigmoid
  (Y, Z2, H, Z1)

/-- Component Y of the forward trace. -/
def fwdY (X : List (List ℝ)) (w : Weights) : List ℝ := (forward_propagation X w).1

/-- Component Z2 of the forward trace. -/
def fwdZ2 (X : List (List ℝ)) (w : Weights) : List ℝ := (forward_propagation X w).2.1

/-- Component H of the forward trace. -/
def fwdH (X : List (List ℝ)) (w : Weights) : List (List ℝ) :=
  (forward_propagation X w).2.2.1

/-- Component Z1 of the forward trace. -/
def fwdZ1 (X : List (List ℝ)) (w : Weights) : List (List ℝ) :=
  (forward_propagation X w).2.2.2

/-- Batch-mean binary cross-entropy, the loss line of back_propagation. -/
def crossEntropyLoss (N : ℕ) (Y Y_T : List ℝ) : ℝ :=
  1 / (N : ℝ) *
    (List.zipWith (fun y yt => -yt * Real.log y - (1 - yt) * Real.log (1 - y)) Y Y_T).sum

/-- The dLdY line of back_propagation. -/
def dLdY_stage (N : ℕ) (Y Y_T : List ℝ) : List ℝ :=
  List.zipWith (fun y yt => 1 / (N : ℝ) * ((y - yt) / (y * (1 - y)))) Y Y_T

/-- The dLdZ2 line of back_propagation: elementwise product with the
derivative of sigmoid recomputed from Z2 rather than read off Y. -/
def dLdZ2_stage (dLdY Z2 : List ℝ) : List ℝ :=
  List.zipWith (fun d z => d * (sigmoid z * (1 - sigmoid z))) dLdY Z2

/-- The dLdZ1 line of back_propagation: elementwise product with the
derivative of sigmoid recomputed from Z1. -/
def dLdZ1_stage (dLdH Z1 : List (List ℝ)) : List (List ℝ) :=
  List.zipWith
    (fun dr zr => List.zipWith (fun d z => d * (sigmoid z * (1 - sigmoid z))) dr zr)
    dLdH Z1

/-- back_propagation from the notebook. The outer guard models the elementwise
NumPy operations that combine Y with Y_T in the loss and dLdY lines, which
raise on mismatched lengths; the inner guard models W2.reshape(1, 3) at the
dLdH line, which raises unless W2 holds exactly 3 entries. On success the call
returns the gradients record together with the scalar loss. -/
def back_propagation (X : List (List ℝ)) (Y_T : List ℝ) (w : Weights) :
    Option (Weights × ℝ) :=
  let N := X.length
  let F := forward_propagation X w
  let Y := F.1
  let Z2 := F.2.1
  let H := F.2.2.1
  let Z1 := F.2.2.2
  if Y_T.length = N then
    if w.W2.length = 3 then
      let L := crossEntropyLoss N Y Y_T
      let dLdY := dLdY_stage N Y Y_T
      let dLdZ2 := dLdZ2_stage dLdY Z2
      let dLdW2 := matTvec H dLdZ2
      let dLdb2 := dotp dLdZ2 (List.replicate N 1)
      let dLdH := outerProd dLdZ2 w.W2
      let dLdZ1 := dLdZ1_stage dLdH Z1
      let dLdW1 := matTmat dLdZ1 X
      let dLdb1 := matTvec dLdZ1 (List.replicate N 1)
      some (⟨dLdW1, dLdb1, dLdW2, dLdb2⟩, L)
    else none
  else none

/-- The dLdY list computed inside back_propagation. -/
def bp_dLdY (X : List (List ℝ)) (Y_T : List ℝ) (w : Weights) : List ℝ :=
  dLdY_stage X.length (fwdY X w) Y_T

/-- The dLdZ2 list computed inside back_propagation. -/
def bp_dLdZ2 (X : List (List ℝ)) (Y_T : List ℝ) (w : Weights) : List ℝ :=
  dLdZ2_stage (bp_dLdY X Y_T w) (fwdZ2 X w)

/-- The dLdW2 gradient computed inside back_propagation. -/
def bp_dLdW2 (X : List (List ℝ)) (Y_T : List ℝ) (w : Weights) : List ℝ :=
  matTvec (fwdH X w) (bp_dLdZ2 X Y_T w)

/-- The dLdb2 gradient computed inside back_propagation. -/
def bp_dLdb2 (X : List (List ℝ)) (Y_T : List ℝ) (w : Weights) : ℝ :=
  dotp (bp_dLdZ2 X Y_T w) (List.replicate X.length 1)

/-- The dLdH matrix computed inside back_propagation. -/
def bp_dLdH (X : List (List ℝ)) (Y_T : List ℝ) (w : Weights) : List (List ℝ) :=
  outerProd (bp_dLdZ2 X Y_T w) w.W2

/-- The dLdZ1 matrix computed inside back_propagation. -/
def bp_dLdZ1 (X : List (List ℝ)) (Y_T : List ℝ) (w : Weights) : List (List ℝ) :=
  dLdZ1_stage (bp_dLdH X Y_T w) (fwdZ1 X w)

/-- The dLdW1 gradient computed inside back_propagation. -/
def bp_dLdW1 (X : List (List ℝ)) (Y_T : List ℝ) (w : Weights) : List (List ℝ) :=
  matTmat (bp_dLdZ1 X Y_T w) X

/-- The dLdb1 gradient computed inside back_propagation. -/
def bp_dLdb1 (X : List (List ℝ)) (Y_T : List ℝ) (w : Weights) : List ℝ :=
  matTvec (bp_dLdZ1 X Y_T w) (List.replicate X.length 1)

/-- The loss scalar computed inside back_propagation. -/
def bpL (X : List (List ℝ)) (Y_T : List ℝ) (w : Weights) : ℝ :=
  crossEntropyLoss X.length (fwdY X w) Y_T

/-- State-passing form of forward_propagation: the body only reads the weight
store, so the store handed back alongside the result is the one passed in. -/
def forward_propagation_store (X : List (List ℝ)) (w : Weights) :
    (List ℝ × List ℝ × List (List ℝ) × List (List ℝ)) × Weights :=
  let Z1 := X.map (fun x => List.zipWith (fun wr b => dotp x wr + b) w.W1 w.b1)
  let H := Z1.map (fun z => z.map sigmoid)
  let Z2 := H.map (fun hr => dotp hr w.W2 + w.b2)
  let Y := Z2.map sigmoid
  ((Y, Z2, H, Z1), w)

/-- State-passing form of back_propagation, mirroring the source line by line:
every occurrence of the weight store is a read (W1 and b1 through the forward
call, W2 at the dLdW2 and dLdH stages), no line assigns to it, so the store
handed back is the one passed in. -/
def back_propagation_store (X : List (List ℝ)) (Y_T : List ℝ) (w : Weights) :
    Option (Weights × ℝ) × Weights :=
  let N := X.length
  let F := forward_propagation X w
  let Y := F.1
  let Z2 := F.2.1
  let H := F.2.2.1
  let Z1 := F.2.2.2
  if Y_T.length = N then
    if w.W2.length = 3 then
      let L := crossEntropyLoss N Y Y_T
      let dLdY := dLdY_stage N Y Y_T
      let dLdZ2 := dLdZ2_stage dLdY Z2
      let dLdW2 := matTvec H dLdZ2
      let dLdb2 := dotp dLdZ2 (List.replicate N 1)
      let dLdH := outerProd dLdZ2 w.W2
      let dLdZ1 := dLdZ1_stage dLdH Z1
      let dLdW1 := matTmat dLdZ1 X
      let dLdb1 := matTvec dLdZ1 (List.replicate N 1)
      (some (⟨dLdW1, dLdb1, dLdW2, dLdb2⟩, L), w)
    else (none, w)
  else (none, w)

/-- Instrumented forward pass: the trace together with a count of one Forward
Evaluator invocation. -/
def forward_propagation_counting (X : List (List ℝ)) (w : Weights) :
    (List ℝ × List ℝ × List (List ℝ) × List (List ℝ)) × ℕ :=
  (forward_propagation X w, 1)

/-- Instrumented backward pass, mirroring back_propagation line by line: the
one call to the instrumented Forward Evaluator happens up front, every later
stage reuses the components of its trace, and the invocation count reported is
the count that single call produced. -/
def back_propagation_counting (X : List (List ℝ)) (Y_T : List ℝ) (w : Weights) :
    Option (Weights × ℝ) × ℕ :=
  let N := X.length
  let Fc := forward_propagation_counting X w
  let Y := Fc.1.1
  let Z2 := Fc.1.2.1
  let H := Fc.1.2.2.1
  let Z1 := Fc.1.2.2.2
  if Y_T.length = N then
    if w.W2.length = 3 then
      let L := crossEntropyLoss N Y Y_T
      let dLdY := dLdY_stage N Y Y_T
      let dLdZ2 := dLdZ2_stage dLdY Z2
      let dLdW2 := matTvec H dLdZ2
      let dLdb2 := dotp dLdZ2 (List.replicate N 1)
      let dLdH := outerProd dLdZ2 w.W2
      let dLdZ1 := dLdZ1_stage dLdH Z1
      let dLdW1 := matTmat dLdZ1 X
      let dLdb1 := matTvec dLdZ1 (List.replicate N 1)
      (some (⟨dLdW1, dLdb1, dLdW2, dLdb2⟩, L), Fc.2)
    else (none, Fc.2)
  else (none, Fc.2)

/-- One gradient-descent update, the loop body applying
weight minus epsilon times gradient to all four tensors. -/
def update_weights (eps : ℝ) (w g : Weights) : Weights :=
  ⟨List.zipWith (fun wr gr => List.zipWith (fun a b => a - eps * b) wr gr) w.W1 g.W1,
   List.zipWith (fun a b => a - eps * b) w.b1 g.b1,
   List.zipWith (fun a b => a - eps * b) w.W2 g.W2,
   w.b2 - eps * g.b2⟩

/-- The training loop of the notebook: E epochs, each computing gradients and
the loss by back_propagation on the full dataset, updating every parameter
tensor with the shared scalar learning rate, and appending the loss to the
history. A failing backward pass aborts the whole run. -/
def train_loop (X : List (List ℝ)) (Y_T : List ℝ) (eps : ℝ) :
    ℕ → Weights → Option (Weights × List ℝ)
  | 0, w => some (w, [])
  | E + 1, w =>
    match back_propagation X Y_T w with
    | none => none
    | some (g, L) =>
      match train_loop X Y_T eps E (update_weights eps w g) with
      | none => none
      | some (wf, ls) => some (wf, L :: ls)

/-- The parameter store as it stands after i iterations of the training loop. -/
def params_after (X : List (List ℝ)) (Y_T : List ℝ) (eps : ℝ) (w : Weights) :
    ℕ → Option Weights
  | 0 => some w
  | i + 1 =>
    match back_propagation X Y_T w with
    | none => none
    | some (g, _) => params_after X Y_T eps (update_weights eps w g) i

/-- Spec formula, stage 1 of section 4.3: entry n of dLdY. -/
def spec_dLdY (X : List (List ℝ)) (Y_T : List ℝ) (w : Weights) (n : ℕ) : ℝ :=
  1 / (X.length : ℝ) *
    (((fwdY X w).getD n 0 - Y_T.getD n 0) /
      ((fwdY X w).getD n 0 * (1 - (fwdY X w).getD n 0)))

/-- Spec formula, stage 2 of section 4.3: entry n of dLdZ2, with the
derivative of sigmoid recomputed from Z2. -/
def spec_dLdZ2 (X : List (List ℝ)) (Y_T : List ℝ) (w : Weights) (n : ℕ) : ℝ :=
  spec_dLdY X Y_T w n *
    (sigmoid ((fwdZ2 X w).getD n 0) * (1 - sigmoid ((fwdZ2 X w).getD n 0)))

/-- Spec formula, stage 3 of section 4.3: entry j of dLdW2 as the transpose of
H applied to dLdZ2, summing over the batch dimension. -/
def spec_dLdW2 (X : List (List ℝ)) (Y_T : List ℝ) (w : Weights) (j : ℕ) : ℝ :=
  ∑ n ∈ Finset.range X.length, ((fwdH X w).getD n []).getD j 0 * spec_dLdZ2 X Y_T w n

/-- Spec formula, stage 3 of section 4.3: dLdb2 as the batch sum of dLdZ2. -/
def spec_dLdb2 (X : List (List ℝ)) (Y_T : List ℝ) (w : Weights) : ℝ :=
  ∑ n ∈ Finset.range X.length, spec_dLdZ2 X Y_T w n

/-- Spec formula, stage 4 of section 4.3: entry (n, j) of dLdH as the outer
product of dLdZ2 with W2. -/
def spec_dLdH (X : List (List ℝ)) (Y_T : List ℝ) (w : Weights) (n j : ℕ) : ℝ :=
  spec_dLdZ2 X Y_T w n * w.W2.getD j 0

/-- Spec formula, stage 5 of section 4.3: entry (n, j) of dLdZ1, with the
derivative of sigmoid recomputed from Z1. -/
def spec_dLdZ1 (X : List (List ℝ)) (Y_T : List ℝ) (w : Weights) (n j : ℕ) : ℝ :=
  spec_dLdH X Y_T w n j *
    (sigmoid (((fwdZ1 X w).getD n []).getD j 0) *
      (1 - sigmoid (((fwdZ1 X w).getD n []).getD j 0)))

/-- Spec formula, stage 6 of section 4.3: entry (j, k) of dLdW1 as the
transpose of dLdZ1 applied to X. -/
def spec_dLdW1 (X : List (List ℝ)) (Y_T : List ℝ) (w : Weights) (j k : ℕ) : ℝ :=
  ∑ n ∈ Finset.range X.length, spec_dLdZ1 X Y_T w n j * (X.getD n []).getD k 0

/-- Spec formula, stage 6 of section 4.3: entry j of dLdb1 as the batch sum of
column j of dLdZ1. -/
def spec_dLdb1 (X : List (List ℝ)) (Y_T : List ℝ) (w : Weights) (j : ℕ) : ℝ :=
  ∑ n ∈ Finset.range X.length, spec_dLdZ1 X Y_T w n j

/-- Modelled from the spec, section 7: clamping a prediction into the closed
interval from eps to 1 - eps. The claim under test asserts that the code
applies this clamp to Y before the loss; the code itself has no such step. -/
def clampTo (eps y : ℝ) : ℝ := max eps (min (1 - eps) y)

/-- Single-row pre-activation of layer 1, the per-example form of Z1. -/
def rowZ1 (x : List ℝ) (w : Weights) : List ℝ :=
  List.zipWith (fun wr b => dotp x wr + b) w.W1 w.b1

/-- Single-row hidden activation, the per-example form of H. -/
def rowH (x : List ℝ) (w : Weights) : List ℝ := (rowZ1 x w).map sigmoid

/-- Single-example pre-activation of layer 2, the per-example form of Z2. -/
def valZ2 (x : List ℝ) (w : Weights) : ℝ := dotp (rowH x w) w.W2 + w.b2

/-- Single-example prediction, the per-example form of Y. -/
def valY (x : List ℝ) (w : Weights) : ℝ := sigmoid (valZ2 x w)

/-- The dLdZ2 entry produced for an example replicated in a batch of size N. -/
def dval (x : List ℝ) (yt : ℝ) (w : Weights) (N : ℕ) : ℝ :=
  1 / (N : ℝ) * ((valY x w - yt) / (valY x w * (1 - valY x w))) *
    (sigmoid (valZ2 x w) * (1 - sigmoid (valZ2 x w)))

/-- The dLdZ1 row produced for an example replicated in a batch of size N. -/
def row_dZ1 (x : List ℝ) (yt : ℝ) (w : Weights) (N : ℕ) : List ℝ :=
  List.zipWith (fun d z => d * (sigmoid z * (1 - sigmoid z)))
    (w.W2.map (fun t => dval x yt w N * t)) (rowZ1 x w)

/-- Concrete scenario input, the batch holding the single example (1, 0). -/
def scenX : List (List ℝ) := [[1, 0]]

/-- Concrete scenario parameters: all four tensors zero, hidden width 3. -/
def zeroWeights : Weights := ⟨[[0, 0], [0, 0], [0, 0]], [0, 0, 0], [0, 0, 0], 0⟩

/-- Parameters that pin the prediction at sigmoid of t: zero first layer and
zero second-layer weights, second-layer bias t. -/
def biasOnly (t : ℝ) : Weights := ⟨[[0, 0], [0, 0], [0, 0]], [0, 0, 0], [0, 0, 0], t⟩

/-- Shape-consistent parameters of hidden width 2, used to exercise the
hard-coded reshape of the backward pass. -/
def widthTwoWeights : Weights := ⟨[[0, 0], [0, 0]], [0, 0], [0, 0], 0⟩

end

/-! Generic list-indexing helpers. -/

theorem getD_pos {α : Type _} (l : List α) (d : α) {n : ℕ} (h : n < l.length) :
    l.getD n d = l[n] := by
  simp [List.getD_eq_getElem?_getD, List.getElem?_eq_getElem h]

theorem getD_zipWith {α β γ : Type _} (f : α → β → γ) (a : List α) (b : List β)
    (da : α) (db : β) (dc : γ) {n : ℕ} (ha : n < a.length) (hb : n < b.length) :
    (List.zipWith f a b).getD n dc = f (a.getD n da) (b.getD n db) := by
  have hm : n < (List.zipWith f a b).length := by simp; omega
  rw [getD_pos _ _ hm, getD_pos _ _ ha, getD_pos _ _ hb]
  simp

theorem getD_map {α β : Type _} (f : α → β) (l : List α) (da : α) (db : β) {n : ℕ}
    (h : n < l.length) : (l.map f).getD n db = f (l.getD n da) := by
  have hm : n < (l.map f).length := by simpa using h
  rw [getD_pos _ _ hm, getD_pos _ _ h]
  simp

theorem getD_replicate_of_lt {α : Type _} (a d : α) {N n : ℕ} (h : n < N) :
    (List.replicate N a).getD n d = a := by
  have hm : n < (List.replicate N a).length := by simpa using h
  rw [getD_pos _ _ hm]
  simp

theorem list_sum_getD (l : List ℝ) :
    l.sum = ∑ n ∈ Finset.range l.length, l.getD n 0 := by
  induction l with
  | nil => simp
  | cons a t ih =>
    rw [List.sum_cons, List.length_cons, Finset.sum_range_succ']
    simp [ih, add_comm]

theorem sum_map_zip {α β : Type _} (A : List α) (v : List β) (da : α) (db : β)
    (f : α → β → ℝ) :
    ((A.zip v).map (fun p => f p.1 p.2)).sum =
      ∑ n ∈ Finset.range (min A.length v.length), f (A.getD n da) (v.getD n db) := by
  rw [list_sum_getD, List.length_map, List.length_zip]
  refine Finset.sum_congr rfl (fun n hn => ?_)
  rw [Finset.mem_range] at hn
  have h1 : n < A.length := lt_of_lt_of_le hn (min_le_left _ _)
  have h2 : n < v.length := lt_of_lt_of_le hn (min_le_right _ _)
  have hm : n < ((A.zip v).map (fun p => f p.1 p.2)).length := by simp; omega
  rw [getD_pos _ _ hm, getD_pos _ _ h1, getD_pos _ _ h2]
  simp

theorem headLen_eq_getD (A : List (List ℝ)) (h : A ≠ []) :
    headLen A = (A.getD 0 []).length := by
  cases A with
  | nil => exact absurd rfl h
  | cons a t => simp [headLen]

theorem headLen_replicate (a : List ℝ) {N : ℕ} (h : 1 ≤ N) :
    headLen (List.replicate N a) = a.length := by
  cases N with
  | zero => omega
  | succ m => simp [headLen, List.replicate_succ]

/-! Entry-level descriptions of the matrix helpers. -/

theorem matTvec_length (A : List (List ℝ)) (v : List ℝ) :
    (matTvec A v).length = headLen A := by
  simp [matTvec]

theorem matTmat_length (A B : List (List ℝ)) :
    (matTmat A B).length = headLen A := by
  simp [matTmat]

theorem matTvec_eq (A : List (List ℝ)) (v : List ℝ) :
    matTvec A v = (List.range (headLen A)).map
      (fun j => ∑ n ∈ Finset.range (min A.length v.length),
        (A.getD n []).getD j 0 * v.getD n 0) := by
  unfold matTvec
  refine List.map_congr_left (fun j _ => ?_)
  exact sum_map_zip A v [] 0 (fun a c => a.getD j 0 * c)

theorem matTmat_eq (A B : List (List ℝ)) :
    matTmat A B = (List.range (headLen A)).map (fun j =>
      (List.range (headLen B)).map (fun k =>
        ∑ n ∈ Finset.range (min A.length B.length),
          (A.getD n []).getD j 0 * (B.getD n []).getD k 0)) := by
  unfold matTmat
  refine List.map_congr_left (fun j _ => ?_)
  refine List.map_congr_left (fun k _ => ?_)
  exact sum_map_zip A B [] [] (fun a b => a.getD j 0 * b.getD k 0)

theorem dotp_eq (a b : List ℝ) :
    dotp a b = ∑ n ∈ Finset.range (min a.length b.length), a.getD n 0 * b.getD n 0 := by
  unfold dotp
  rw [list_sum_getD, List.length_zipWith]
  refine Finset.sum_congr rfl (fun n hn => ?_)
  rw [Finset.mem_range] at hn
  have h1 : n < a.length := lt_of_lt_of_le hn (min_le_left _ _)
  have h2 : n < b.length := lt_of_lt_of_le hn (min_le_right _ _)
  have hm : n < (List.zipWith (fun x y => x * y) a b).length := by simp; omega
  rw [getD_pos _ _ hm, getD_pos _ _ h1, getD_pos _ _ h2]
  simp

/-! Lengths and entries of the forward trace. -/

theorem fwdY_length (X : List (List ℝ)) (w : Weights) : (fwdY X w).length = X.length := by
  simp [fwdY, forward_propagation]

theorem fwdZ2_length (X : List (List ℝ)) (w : Weights) :
    (fwdZ2 X w).length = X.length := by
  simp [fwdZ2, forward_propagation]

theorem fwdH_length (X : List (List ℝ)) (w : Weights) : (fwdH X w).length = X.length := by
  simp [fwdH, forward_propagation]

theorem fwdZ1_length (X : List (List ℝ)) (w : Weights) :
    (fwdZ1 X w).length = X.length := by
  simp [fwdZ1, forward_propagation]

theorem fwdZ1_getD (X : List (List ℝ)) (w : Weights) {n : ℕ} (h : n < X.length) :
    (fwdZ1 X w).getD n [] = rowZ1 (X.getD n []) w := by
  unfold fwdZ1 forward_propagation rowZ1
  exact getD_map _ X [] [] h

theorem fwdH_getD (X : List (List ℝ)) (w : Weights) {n : ℕ} (h : n < X.length) :
    (fwdH X w).getD n [] = ((fwdZ1 X w).getD n []).map sigmoid := by
  unfold fwdH fwdZ1 forward_propagation
  have hl : n < (X.map (fun x => List.zipWith (fun wr b => dotp x wr + b) w.W1 w.b1)).length := by
    simpa using h
  exact getD_map _ _ [] [] hl

theorem fwdZ2_getD (X : List (List ℝ)) (w : Weights) {n : ℕ} (h : n < X.length) :
    (fwdZ2 X w).getD n 0 = dotp ((fwdH X w).getD n []) w.W2 + w.b2 := by
  unfold fwdZ2 fwdH forward_propagation
  have hl : n < ((X.map (fun x => List.zipWith (fun wr b => dotp x wr + b) w.W1 w.b1)).map
      (fun z => z.map sigmoid)).length := by simpa using h
  exact getD_map _ _ [] 0 hl

theorem fwdY_getD (X : List (List ℝ)) (w : Weights) {n : ℕ} (h : n < X.length) :
    (fwdY X w).getD n 0 = sigmoid ((fwdZ2 X w).getD n 0) := by
  unfold fwdY fwdZ2 forward_propagation
  have hl : n < (((X.map (fun x => List.zipWith (fun wr b => dotp x wr + b) w.W1 w.b1)).map
      (fun z => z.map sigmoid)).map (fun hr => dotp hr w.W2 + w.b2)).length := by simpa using h
  exact getD_map _ _ 0 0 hl

theorem fwdZ1_row_length (X : List (List ℝ)) (w : Weights) {n : ℕ} (h : n < X.length) :
    ((fwdZ1 X w).getD n []).length = min w.W1.length w.b1.length := by
  rw [fwdZ1_getD X w h]
  simp [rowZ1]

theorem fwdH_row_length (X : List (List ℝ)) (w : Weights) {n : ℕ} (h : n < X.length) :
    ((fwdH X w).getD n []).length = min w.W1.length w.b1.length := by
  rw [fwdH_getD X w h, List.length_map, fwdZ1_row_length X w h]

theorem fwdZ1_rows (X : List (List ℝ)) (w : Weights) {r : List ℝ} (hr : r ∈ fwdZ1 X w) :
    r.length = min w.W1.length w.b1.length := by
  unfold fwdZ1 forward_propagation at hr
  simp only [List.mem_map] at hr
  obtain ⟨x, _, rfl⟩ := hr
  simp

theorem fwdH_rows (X : List (List ℝ)) (w : Weights) {r : List ℝ} (hr : r ∈ fwdH X w) :
    r.length = min w.W1.length w.b1.length := by
  unfold fwdH forward_propagation at hr
  simp only [List.mem_map] at hr
  obtain ⟨x, hx, rfl⟩ := hr
  obtain ⟨a, _, rfl⟩ := hx
  simp

theorem fwdH_ne_nil (X : List (List ℝ)) (w : Weights) (hX : X ≠ []) : fwdH X w ≠ [] := by
  intro hc
  have := fwdH_length X w
  rw [hc] at this
  simp at this
  exact hX (List.length_eq_zero.mp this.symm)

theorem headLen_fwdH (X : List (List ℝ)) (w : Weights) (hX : X ≠ []) :
    headLen (fwdH X w) = min w.W1.length w.b1.length := by
  have h0 : 0 < X.length := List.length_pos.mpr hX
  rw [headLen_eq_getD _ (fwdH_ne_nil X w hX), fwdH_row_length X w h0]

/-! Reduction of back_propagation to its stages, and stage entries. -/

theorem back_propagation_eq (X : List (List ℝ)) (Y_T : List ℝ) (w : Weights)
    (hYT : Y_T.length = X.length) (h3 : w.W2.length = 3) :
    back_propagation X Y_T w =
      some (⟨bp_dLdW1 X Y_T w, bp_dLdb1 X Y_T w, bp_dLdW2 X Y_T w, bp_dLdb2 X Y_T w⟩,
        bpL X Y_T w) := by
  simp [back_propagation, hYT, h3, bp_dLdW1, bp_dLdb1, bp_dLdW2, bp_dLdb2, bpL,
    bp_dLdZ1, bp_dLdH, bp_dLdZ2, bp_dLdY, fwdY, fwdZ2, fwdH, fwdZ1]

theorem back_propagation_none_of_badW2 (X : List (List ℝ)) (Y_T : List ℝ) (w : Weights)
    (hYT : Y_T.length = X.length) (h3 : w.W2.length ≠ 3) :
    back_propagation X Y_T w = none := by
  simp [back_propagation, hYT, h3]

theorem back_propagation_none_of_badYT (X : List (List ℝ)) (Y_T : List ℝ) (w : Weights)
    (hYT : Y_T.length ≠ X.length) : back_propagation X Y_T w = none := by
  simp [back_propagation, hYT]

theorem bp_dLdY_length (X : List (List ℝ)) (Y_T : List ℝ) (w : Weights) :
    (bp_dLdY X Y_T w).length = min X.length Y_T.length := by
  simp [bp_dLdY, dLdY_stage, fwdY_length]

theorem bp_dLdY_getD (X : List (List ℝ)) (Y_T : List ℝ) (w : Weights) {n : ℕ}
    (hn : n < X.length) (hY : n < Y_T.length) :
    (bp_dLdY X Y_T w).getD n 0 = spec_dLdY X Y_T w n := by
  unfold bp_dLdY dLdY_stage spec_dLdY
  rw [getD_zipWith _ _ _ 0 0 0 (by rw [fwdY_length]; exact hn) hY]

theorem bp_dLdZ2_length (X : List (List ℝ)) (Y_T : List ℝ) (w : Weights)
    (hYT : Y_T.length = X.length) : (bp_dLdZ2 X Y_T w).length = X.length := by
  simp [bp_dLdZ2, dLdZ2_stage, bp_dLdY_length, fwdZ2_length, hYT]

theorem bp_dLdZ2_getD (X : List (List ℝ)) (Y_T : List ℝ) (w : Weights)
    (hYT : Y_T.length = X.length) {n : ℕ} (hn : n < X.length) :
    (bp_dLdZ2 X Y_T w).getD n 0 = spec_dLdZ2 X Y_T w n := by
  unfold bp_dLdZ2 dLdZ2_stage spec_dLdZ2
  rw [getD_zipWith _ _ _ 0 0 0 (by rw [bp_dLdY_length, hYT]; omega)
    (by rw [fwdZ2_length]; exact hn)]
  rw [bp_dLdY_getD X Y_T w hn (by omega)]

theorem bp_dLdW2_eq (X : List (List ℝ)) (Y_T : List ℝ) (w : Weights)
    (hX : X ≠ []) (hYT : Y_T.length = X.length)
    (hW1 : w.W1.length = 3) (hb1 : w.b1.length = 3) :
    bp_dLdW2 X Y_T w = (List.range 3).map (fun j => spec_dLdW2 X Y_T w j) := by
  unfold bp_dLdW2
  rw [matTvec_eq]
  have hh : headLen (fwdH X w) = 3 := by
    rw [headLen_fwdH X w hX, hW1, hb1]
    simp
  simp only [hh, fwdH_length, bp_dLdZ2_length X Y_T w hYT, min_self]
  refine List.map_congr_left (fun j _ => ?_)
  unfold spec_dLdW2
  refine Finset.sum_congr rfl (fun n hn => ?_)
  rw [Finset.mem_range] at hn
  rw [bp_dLdZ2_getD X Y_T w hYT hn]

theorem bp_dLdb2_eq (X : List (List ℝ)) (Y_T : List ℝ) (w : Weights)
    (hYT : Y_T.length = X.length) : bp_dLdb2 X Y_T w = spec_dLdb2 X Y_T w := by
  unfold bp_dLdb2 spec_dLdb2
  rw [dotp_eq]
  simp only [bp_dLdZ2_length X Y_T w hYT, List.length_replicate, min_self]
  refine Finset.sum_congr rfl (fun n hn => ?_)
  rw [Finset.mem_range] at hn
  rw [bp_dLdZ2_getD X Y_T w hYT hn, getD_replicate_of_lt _ _ hn, mul_one]

theorem bp_dLdH_length (X : List (List ℝ)) (Y_T : List ℝ) (w : Weights)
    (hYT : Y_T.length = X.length) : (bp_dLdH X Y_T w).length = X.length := by
  simp [bp_dLdH, outerProd, bp_dLdZ2_length X Y_T w hYT]

theorem bp_dLdH_getD (X : List (List ℝ)) (Y_T : List ℝ) (w : Weights)
    (hYT : Y_T.length = X.length) {n : ℕ} (hn : n < X.length) :
    (bp_dLdH X Y_T w).getD n [] = w.W2.map (fun t => spec_dLdZ2 X Y_T w n * t) := by
  unfold bp_dLdH outerProd
  rw [getD_map _ _ 0 [] (by rw [bp_dLdZ2_length X Y_T w hYT]; exact hn)]
  rw [bp_dLdZ2_getD X Y_T w hYT hn]

theorem bp_dLdZ1_length (X : List (List ℝ)) (Y_T : List ℝ) (w : Weights)
    (hYT : Y_T.length = X.length) : (bp_dLdZ1 X Y_T w).length = X.length := by
  simp [bp_dLdZ1, dLdZ1_stage, bp_dLdH_length X Y_T w hYT, fwdZ1_length]

theorem bp_dLdZ1_getD_row (X : List (List ℝ)) (Y_T : List ℝ) (w : Weights)
    (hYT : Y_T.length = X.length) {n : ℕ} (hn : n < X.length) :
    (bp_dLdZ1 X Y_T w).getD n [] =
      List.zipWith (fun d z => d * (sigmoid z * (1 - sigmoid z)))
        (w.W2.map (fun t => spec_dLdZ2 X Y_T w n * t)) ((fwdZ1 X w).getD n []) := by
  unfold bp_dLdZ1 dLdZ1_stage
  rw [getD_zipWith _ _ _ [] [] [] (by rw [bp_dLdH_length X Y_T w hYT]; exact hn)
    (by rw [fwdZ1_length]; exact hn)]
  rw [bp_dLdH_getD X Y_T w hYT hn]

theorem bp_dLdZ1_row_length (X : List (List ℝ)) (Y_T : List ℝ) (w : Weights)
    (hYT : Y_T.length = X.length) (h3 : w.W2.length = 3)
    (hW1 : w.W1.length = 3) (hb1 : w.b1.length = 3) {n : ℕ} (hn : n < X.length) :
    ((bp_dLdZ1 X Y_T w).getD n []).length = 3 := by
  rw [bp_dLdZ1_getD_row X Y_T w hYT hn, List.length_zipWith, List.length_map,
    fwdZ1_row_length X w hn, h3, hW1, hb1]
  simp

theorem bp_dLdZ1_entry (X : List (List ℝ)) (Y_T : List ℝ) (w : Weights)
    (hYT : Y_T.length = X.length) (h3 : w.W2.length = 3)
    (hW1 : w.W1.length = 3) (hb1 : w.b1.length = 3) {n j : ℕ}
    (hn : n < X.length) (hj : j < 3) :
    ((bp_dLdZ1 X Y_T w).getD n []).getD j 0 = spec_dLdZ1 X Y_T w n j := by
  rw [bp_dLdZ1_getD_row X Y_T w hYT hn]
  rw [getD_zipWith _ _ _ 0 0 0 (by rw [List.length_map, h3]; exact hj)
    (by rw [fwdZ1_row_length X w hn, hW1, hb1]; simpa)]
  rw [getD_map _ _ 0 0 (by rw [h3]; exact hj)]
  unfold spec_dLdZ1 spec_dLdH
  rfl

theorem bp_dLdZ1_ne_nil (X : List (List ℝ)) (Y_T : List ℝ) (w : Weights)
    (hX : X ≠ []) (hYT : Y_T.length = X.length) : bp_dLdZ1 X Y_T w ≠ [] := by
  intro hc
  have := bp_dLdZ1_length X Y_T w hYT
  rw [hc] at this
  simp at this
  exact hX (List.length_eq_zero.mp this.symm)

theorem headLen_bp_dLdZ1 (X : List (List ℝ)) (Y_T : List ℝ) (w : Weights)
    (hX : X ≠ []) (hYT : Y_T.length = X.length) (h3 : w.W2.length = 3)
    (hW1 : w.W1.length = 3) (hb1 : w.b1.length = 3) :
    headLen (bp_dLdZ1 X Y_T w) = 3 := by
  have h0 : 0 < X.length := List.length_pos.mpr hX
  rw [headLen_eq_getD _ (bp_dLdZ1_ne_nil X Y_T w hX hYT)]
  exact bp_dLdZ1_row_length X Y_T w hYT h3 hW1 hb1 h0

theorem headLen_of_rows (X : List (List ℝ)) (d : ℕ) (hX : X ≠ [])
    (hr : ∀ r ∈ X, r.length = d) : headLen X = d := by
  have h0 : 0 < X.length := List.length_pos.mpr hX
  rw [headLen_eq_getD X hX, getD_pos _ _ h0]
  exact hr _ (List.getElem_mem h0)

theorem bp_dLdW1_eq (X : List (List ℝ)) (Y_T : List ℝ) (w : Weights)
    (hX : X ≠ []) (hXr : ∀ r ∈ X, r.length = 2) (hYT : Y_T.length = X.length)
    (h3 : w.W2.length = 3) (hW1 : w.W1.length = 3) (hb1 : w.b1.length = 3) :
    bp_dLdW1 X Y_T w =
      (List.range 3).map (fun j => (List.range 2).map (fun k => spec_dLdW1 X Y_T w j k)) := by
  unfold bp_dLdW1
  rw [matTmat_eq]
  simp only [headLen_bp_dLdZ1 X Y_T w hX hYT h3 hW1 hb1, headLen_of_rows X 2 hX hXr,
    bp_dLdZ1_length X Y_T w hYT, min_self]
  refine List.map_congr_left (fun j hj => ?_)
  rw [List.mem_range] at hj
  refine List.map_congr_left (fun k _ => ?_)
  unfold spec_dLdW1
  refine Finset.sum_congr rfl (fun n hn => ?_)
  rw [Finset.mem_range] at hn
  rw [bp_dLdZ1_entry X Y_T w hYT h3 hW1 hb1 hn hj]

theorem bp_dLdb1_eq (X : List (List ℝ)) (Y_T : List ℝ) (w : Weights)
    (hX : X ≠ []) (hYT : Y_T.length = X.length)
    (h3 : w.W2.length = 3) (hW1 : w.W1.length = 3) (hb1 : w.b1.length = 3) :
    bp_dLdb1 X Y_T w = (List.range 3).map (fun j => spec_dLdb1 X Y_T w j) := by
  unfold bp_dLdb1
  rw [matTvec_eq]
  simp only [headLen_bp_dLdZ1 X Y_T w hX hYT h3 hW1 hb1,
    bp_dLdZ1_length X Y_T w hYT, List.length_replicate, min_self]
  refine List.map_congr_left (fun j hj => ?_)
  rw [List.mem_range] at hj
  unfold spec_dLdb1
  refine Finset.sum_congr rfl (fun n hn => ?_)
  rw [Finset.mem_range] at hn
  rw [bp_dLdZ1_entry X Y_T w hYT h3 hW1 hb1 hn hj, getD_replicate_of_lt _ _ hn, mul_one]

/-! Facts about sigmoid. -/

theorem sigmoid_pos (x : ℝ) : 0 < sigmoid x := by
  unfold sigmoid
  positivity

theorem sigmoid_lt_one (x : ℝ) : sigmoid x < 1 := by
  unfold sigmoid
  rw [div_lt_one (by positivity)]
  have := Real.exp_pos (-x)
  linarith

theorem sigmoid_lt_exp (x : ℝ) : sigmoid x < Real.exp x := by
  unfold sigmoid
  rw [div_lt_iff (by positivity)]
  have h1 := Real.exp_pos x
  have h2 : Real.exp x * Real.exp (-x) = 1 := by
    rw [← Real.exp_add]
    simp
  nlinarith [Real.exp_pos (-x)]

theorem sigmoid_zero : sigmoid 0 = 1 / 2 := by
  unfold sigmoid
  rw [neg_zero, Real.exp_zero]
  norm_num

/-- Claim C1: for every batch X of shape (N, 2) with N at least 1, every label
vector of length N and every shape-consistent parameter set of hidden width 3,
back_propagation succeeds and returns exactly the four gradient tensors given
by the chain-rule stages of the spec — dLdW2 and dLdb2 from the transpose of H
against dLdZ2, dLdW1 and dLdb1 from the transpose of dLdZ1 against X, with the
sigmoid derivative recomputed from Z2 and Z1 — and each gradient has exactly
the shape of its parameter. -/
theorem C1_back_propagation_chain_rule (X : List (List ℝ)) (Y_T : List ℝ) (w : Weights)
    (hX : X ≠ []) (hXr : ∀ r ∈ X, r.length = 2) (hYT : Y_T.length = X.length)
    (hW1 : w.W1.length = 3) (hW1r : ∀ r ∈ w.W1, r.length = 2)
    (hb1 : w.b1.length = 3) (hW2 : w.W2.length = 3) :
    ∃ g L, back_propagation X Y_T w = some (g, L) ∧
      g.W1 = (List.range 3).map (fun j => (List.range 2).map (fun k => spec_dLdW1 X Y_T w j k)) ∧
      g.b1 = (List.range 3).map (fun j => spec_dLdb1 X Y_T w j) ∧
      g.W2 = (List.range 3).map (fun j => spec_dLdW2 X Y_T w j) ∧
      g.b2 = spec_dLdb2 X Y_T w ∧
      g.W1.length = w.W1.length ∧ (∀ r ∈ g.W1, r.length = 2) ∧
      g.b1.length = w.b1.length ∧ g.W2.length = w.W2.length := by
  refine ⟨_, _, back_propagation_eq X Y_T w hYT hW2,
    bp_dLdW1_eq X Y_T w hX hXr hYT hW2 hW1 hb1,
    bp_dLdb1_eq X Y_T w hX hYT hW2 hW1 hb1,
    bp_dLdW2_eq X Y_T w hX hYT hW1 hb1,
    bp_dLdb2_eq X Y_T w hYT, ?_, ?_, ?_, ?_⟩
  · rw [bp_dLdW1_eq X Y_T w hX hXr hYT hW2 hW1 hb1, hW1]
    simp
  · rw [bp_dLdW1_eq X Y_T w hX hXr hYT hW2 hW1 hb1]
    intro r hr
    simp only [List.mem_map] at hr
    obtain ⟨j, _, rfl⟩ := hr
    simp
  · rw [bp_dLdb1_eq X Y_T w hX hYT hW2 hW1 hb1, hb1]
    simp
  · rw [bp_dLdW2_eq X Y_T w hX hYT hW1 hb1, hW2]
    simp

/-- Witness for claim C1 at the concrete scenario batch and zero parameters. -/
theorem C1_back_propagation_chain_rule_witness :
    ∃ g L, back_propagation scenX [1] zeroWeights = some (g, L) ∧
      g.W1 = (List.range 3).map
        (fun j => (List.range 2).map (fun k => spec_dLdW1 scenX [1] zeroWeights j k)) ∧
      g.b1 = (List.range 3).map (fun j => spec_dLdb1 scenX [1] zeroWeights j) ∧
      g.W2 = (List.range 3).map (fun j => spec_dLdW2 scenX [1] zeroWeights j) ∧
      g.b2 = spec_dLdb2 scenX [1] zeroWeights ∧
      g.W1.length = zeroWeights.W1.length ∧ (∀ r ∈ g.W1, r.length = 2) ∧
      g.b1.length = zeroWeights.b1.length ∧ g.W2.length = zeroWeights.W2.length :=
  C1_back_propagation_chain_rule scenX [1] zeroWeights
    (by simp [scenX]) (by simp [scenX]) (by simp [scenX])
    (by simp [zeroWeights]) (by simp [zeroWeights]) (by simp [zeroWeights])
    (by simp [zeroWeights])

/-- Claim C2: at the concrete scenario X = [[1, 0]] with all-zero parameters,
the forward trace is Z1 = [0, 0, 0], H = [0.5, 0.5, 0.5], Z2 = 0, Y = 0.5;
with label 1 the loss is minus the log of one half, about 0.693147; and the
backward intermediates are dLdY = -2, sigmoid derivative 0.25 at 0, and
dLdZ2 = -0.5. -/
theorem C2_concrete_scenario :
    forward_propagation scenX zeroWeights =
      ([1 / 2], [0], [[1 / 2, 1 / 2, 1 / 2]], [[0, 0, 0]]) ∧
    (back_propagation scenX [1] zeroWeights).map Prod.snd = some (-Real.log (1 / 2)) ∧
    |(-Real.log (1 / 2)) - 0.693147| < 1 / 100000 ∧
    dLdY_stage 1 [1 / 2] [1] = [-2] ∧
    sigmoid 0 * (1 - sigmoid 0) = 1 / 4 ∧
    dLdZ2_stage [-2] [0] = [-1 / 2] := by
  have hfwd : forward_propagation scenX zeroWeights =
      ([1 / 2], [0], [[1 / 2, 1 / 2, 1 / 2]], [[0, 0, 0]]) := by
    simp [forward_propagation, scenX, zeroWeights, dotp, sigmoid_zero]
  refine ⟨hfwd, ?_, ?_, ?_, ?_, ?_⟩
  · rw [back_propagation_eq scenX [1] zeroWeights (by simp [scenX]) (by simp [zeroWeights])]
    have hY : fwdY scenX zeroWeights = [1 / 2] := by
      unfold fwdY
      rw [hfwd]
    have hL : bpL scenX [1] zeroWeights = -Real.log (1 / 2) := by
      unfold bpL crossEntropyLoss
      rw [hY]
      norm_num [scenX]
    rw [Option.map_some', hL]
  · rw [show -Real.log (1 / 2) = Real.log 2 by rw [one_div, Real.log_inv, neg_neg]]
    have h1 := Real.log_two_gt_d9
    have h2 := Real.log_two_lt_d9
    rw [abs_lt]
    constructor <;> nlinarith
  · norm_num [dLdY_stage]
  · rw [sigmoid_zero]
    norm_num
  · norm_num [dLdZ2_stage, sigmoid_zero]

/-- Claim C3: for every input batch and shape-consistent parameter set of
hidden width h, the forward pass returns Y and Z2 of length N and H and Z1 of
shape N by h, and its state-passing form leaves the parameter store unchanged. -/
theorem C3_forward_shapes (X : List (List ℝ)) (w : Weights) (d h : ℕ)
    (hXr : ∀ r ∈ X, r.length = d) (hW1 : w.W1.length = h)
    (hW1r : ∀ r ∈ w.W1, r.length = d) (hb1 : w.b1.length = h) (hW2 : w.W2.length = h) :
    (fwdY X w).length = X.length ∧ (fwdZ2 X w).length = X.length ∧
    (fwdH X w).length = X.length ∧ (fwdZ1 X w).length = X.length ∧
    (∀ r ∈ fwdH X w, r.length = h) ∧ (∀ r ∈ fwdZ1 X w, r.length = h) ∧
    forward_propagation_store X w = (forward_propagation X w, w) := by
  refine ⟨fwdY_length X w, fwdZ2_length X w, fwdH_length X w, fwdZ1_length X w,
    ?_, ?_, rfl⟩
  · intro r hr
    rw [fwdH_rows X w hr, hW1, hb1]
    simp
  · intro r hr
    rw [fwdZ1_rows X w hr, hW1, hb1]
    simp

/-- Witness for claim C3 at the concrete scenario batch and zero parameters. -/
theorem C3_forward_shapes_witness :
    (fwdY scenX zeroWeights).length = scenX.length ∧
    (fwdZ2 scenX zeroWeights).length = scenX.length ∧
    (fwdH scenX zeroWeights).length = scenX.length ∧
    (fwdZ1 scenX zeroWeights).length = scenX.length ∧
    (∀ r ∈ fwdH scenX zeroWeights, r.length = 3) ∧
    (∀ r ∈ fwdZ1 scenX zeroWeights, r.length = 3) ∧
    forward_propagation_store scenX zeroWeights =
      (forward_propagation scenX zeroWeights, zeroWeights) :=
  C3_forward_shapes scenX zeroWeights 2 3 (by simp [scenX]) (by simp [zeroWeights])
    (by simp [zeroWeights]) (by simp [zeroWeights]) (by simp [zeroWeights])

theorem fwdY_biasOnly (t : ℝ) : fwdY scenX (biasOnly t) = [sigmoid t] := by
  simp [fwdY, forward_propagation, scenX, biasOnly, dotp]

/-- Counterexample for claim C4: no fixed positive clamping threshold can
describe the loss back_propagation computes, because the code feeds the raw
sigmoid output to the logarithm; a second-layer bias of log eps minus one
drives the prediction strictly below eps, where the clamped and unclamped
losses differ. -/
theorem C4_clamping_counterexample :
    ¬ ∃ eps : ℝ, 0 < eps ∧ eps ≤ 1 / 2 ∧
      ∀ (X : List (List ℝ)) (Y_T : List ℝ) (w g : Weights) (L : ℝ),
        back_propagation X Y_T w = some (g, L) →
        L = crossEntropyLoss X.length ((fwdY X w).map (clampTo eps)) Y_T := by
  rintro ⟨eps, heps0, heps2, hAll⟩
  have h1 := sigmoid_lt_exp (Real.log eps - 1)
  have h2 : Real.exp (Real.log eps - 1) = eps * Real.exp (-1) := by
    rw [sub_eq_add_neg, Real.exp_add, Real.exp_log heps0]
  have h3 : Real.exp (-1 : ℝ) < 1 := by
    rw [Real.exp_lt_one_iff]
    norm_num
  have hst : sigmoid (Real.log eps - 1) < eps := by
    calc sigmoid (Real.log eps - 1) < Real.exp (Real.log eps - 1) := h1
    _ = eps * Real.exp (-1) := h2
    _ < eps * 1 := mul_lt_mul_of_pos_left h3 heps0
    _ = eps := mul_one eps
  have hclamp : clampTo eps (sigmoid (Real.log eps - 1)) = eps := by
    unfold clampTo
    rw [min_eq_right (by linarith), max_eq_left (le_of_lt hst)]
  have hbp := back_propagation_eq scenX [1] (biasOnly (Real.log eps - 1))
    (by simp [scenX]) (by simp [biasOnly])
  have hLcode : bpL scenX [1] (biasOnly (Real.log eps - 1)) =
      -Real.log (sigmoid (Real.log eps - 1)) := by
    unfold bpL crossEntropyLoss
    rw [fwdY_biasOnly]
    norm_num [scenX]
  have happ := hAll scenX [1] (biasOnly (Real.log eps - 1)) _ _ hbp
  rw [hLcode, fwdY_biasOnly] at happ
  rw [show ([sigmoid (Real.log eps - 1)].map (clampTo eps)) = [eps] by simp [hclamp]] at happ
  have hRHS : crossEntropyLoss scenX.length [eps] [1] = -Real.log eps := by
    norm_num [crossEntropyLoss, scenX]
  rw [hRHS] at happ
  have hlog : Real.log (sigmoid (Real.log eps - 1)) = Real.log eps := by linarith
  have heq : sigmoid (Real.log eps - 1) = eps := by
    have hx := Real.exp_log (sigmoid_pos (Real.log eps - 1))
    rw [← hx, hlog, Real.exp_log heps0]
  linarith

/-- Claim C4 as amended: back_propagation applies no clamp — the loss it
computes is the cross-entropy of the raw forward predictions — and in the
real-valued semantics every such prediction lies strictly between 0 and 1, so
the logarithm and the division never see an argument exactly 0 or 1, though
the predictions are not bounded away from 0 or 1 by any fixed threshold. -/
theorem C4_raw_predictions_in_open_interval (X : List (List ℝ)) (Y_T : List ℝ)
    (w : Weights) :
    bpL X Y_T w = crossEntropyLoss X.length (fwdY X w) Y_T ∧
    ∀ y ∈ fwdY X w, 0 < y ∧ y < 1 := by
  refine ⟨rfl, ?_⟩
  intro y hy
  have hYZ : fwdY X w = (fwdZ2 X w).map sigmoid := rfl
  rw [hYZ] at hy
  obtain ⟨z, _, rfl⟩ := List.mem_map.mp hy
  exact ⟨sigmoid_pos z, sigmoid_lt_one z⟩

/-- Witness for the amended claim C4 at the concrete scenario. -/
theorem C4_raw_predictions_in_open_interval_witness : 0 < (1 : ℝ) / 2 ∧ (1 : ℝ) / 2 < 1 :=
  (C4_raw_predictions_in_open_interval scenX [1] zeroWeights).2 (1 / 2)
    (by rw [show fwdY scenX zeroWeights = [1 / 2] by
          simp [fwdY, forward_propagation, scenX, zeroWeights, dotp, sigmoid_zero]]
        simp)

/-- Claim C7: one call of the backward pass makes exactly one Forward
Evaluator invocation in total — the instrumented backward pass reports a
forward-call count of 1 while computing exactly what back_propagation
computes, on every input, including the failing ones. -/
theorem C7_single_forward_invocation (X : List (List ℝ)) (Y_T : List ℝ) (w : Weights) :
    back_propagation_counting X Y_T w = (back_propagation X Y_T w, 1) := by
  unfold back_propagation_counting back_propagation forward_propagation_counting
  by_cases h1 : Y_T.length = X.length
  · by_cases h2 : w.W2.length = 3 <;> simp [h1, h2]
  · simp [h1]

/-- Claim C8: for every shape-consistent parameter set of hidden width other
than 3, the forward pass still returns the documented shapes, but the backward
pass fails, because the dLdH line reshapes W2 to (1, 3) and that reshape
requires exactly 3 entries. -/
theorem C8_hidden_width_hardcoded (X : List (List ℝ)) (Y_T : List ℝ) (w : Weights)
    (h : ℕ) (hne : h ≠ 3) (hW1 : w.W1.length = h) (hb1 : w.b1.length = h)
    (hW2 : w.W2.length = h) (hYT : Y_T.length = X.length) :
    (fwdY X w).length = X.length ∧ (fwdZ2 X w).length = X.length ∧
    (fwdH X w).length = X.length ∧ (fwdZ1 X w).length = X.length ∧
    (∀ r ∈ fwdH X w, r.length = h) ∧ (∀ r ∈ fwdZ1 X w, r.length = h) ∧
    back_propagation X Y_T w = none := by
  refine ⟨fwdY_length X w, fwdZ2_length X w, fwdH_length X w, fwdZ1_length X w,
    ?_, ?_, ?_⟩
  · intro r hr
    rw [fwdH_rows X w hr, hW1, hb1]
    simp
  · intro r hr
    rw [fwdZ1_rows X w hr, hW1, hb1]
    simp
  · exact back_propagation_none_of_badW2 X Y_T w hYT (by rw [hW2]; exact hne)

/-- Witness for claim C8 with hidden width 2. -/
theorem C8_hidden_width_hardcoded_witness :
    (fwdY scenX widthTwoWeights).length = scenX.length ∧
    (fwdZ2 scenX widthTwoWeights).length = scenX.length ∧
    (fwdH scenX widthTwoWeights).length = scenX.length ∧
    (fwdZ1 scenX widthTwoWeights).length = scenX.length ∧
    (∀ r ∈ fwdH scenX widthTwoWeights, r.length = 2) ∧
    (∀ r ∈ fwdZ1 scenX widthTwoWeights, r.length = 2) ∧
    back_propagation scenX [1] widthTwoWeights = none :=
  C8_hidden_width_hardcoded scenX [1] widthTwoWeights 2 (by decide)
    (by simp [widthTwoWeights]) (by simp [widthTwoWeights]) (by simp [widthTwoWeights])
    (by simp [scenX])

/-- Claim C9: the backward pass never mutates the parameter store — its
state-passing form returns, for every input, exactly the result of
back_propagation paired with the untouched store. -/
theorem C9_no_parameter_mutation (X : List (List ℝ)) (Y_T : List ℝ) (w : Weights) :
    back_propagation_store X Y_T w = (back_propagation X Y_T w, w) := by
  unfold back_propagation_store back_propagation
  by_cases h1 : Y_T.length = X.length
  · by_cases h2 : w.W2.length = 3 <;> simp [h1, h2]
  · simp [h1]

/-! Shapes of the gradients, and the training loop invariant. -/

theorem bp_dLdW2_length (X : List (List ℝ)) (Y_T : List ℝ) (w : Weights)
    (hX : X ≠ []) (hW1 : w.W1.length = 3) (hb1 : w.b1.length = 3) :
    (bp_dLdW2 X Y_T w).length = 3 := by
  unfold bp_dLdW2
  rw [matTvec_length, headLen_fwdH X w hX, hW1, hb1]
  simp

theorem bp_dLdb1_length (X : List (List ℝ)) (Y_T : List ℝ) (w : Weights)
    (hX : X ≠ []) (hYT : Y_T.length = X.length) (h3 : w.W2.length = 3)
    (hW1 : w.W1.length = 3) (hb1 : w.b1.length = 3) :
    (bp_dLdb1 X Y_T w).length = 3 := by
  unfold bp_dLdb1
  rw [matTvec_length, headLen_bp_dLdZ1 X Y_T w hX hYT h3 hW1 hb1]

theorem bp_dLdW1_length (X : List (List ℝ)) (Y_T : List ℝ) (w : Weights)
    (hX : X ≠ []) (hYT : Y_T.length = X.length) (h3 : w.W2.length = 3)
    (hW1 : w.W1.length = 3) (hb1 : w.b1.length = 3) :
    (bp_dLdW1 X Y_T w).length = 3 := by
  unfold bp_dLdW1
  rw [matTmat_length, headLen_bp_dLdZ1 X Y_T w hX hYT h3 hW1 hb1]

theorem update_keeps_shapes (eps : ℝ) (w g : Weights)
    (hW1 : w.W1.length = 3) (hb1 : w.b1.length = 3) (hW2 : w.W2.length = 3)
    (hgW1 : g.W1.length = 3) (hgb1 : g.b1.length = 3) (hgW2 : g.W2.length = 3) :
    (update_weights eps w g).W1.length = 3 ∧ (update_weights eps w g).b1.length = 3 ∧
    (update_weights eps w g).W2.length = 3 := by
  simp [update_weights, hW1, hb1, hW2, hgW1, hgb1, hgW2]

theorem train_loop_ok (X : List (List ℝ)) (Y_T : List ℝ) (eps : ℝ)
    (hX : X ≠ []) (hYT : Y_T.length = X.length) :
    ∀ (E : ℕ) (w : Weights), w.W1.length = 3 → w.b1.length = 3 → w.W2.length = 3 →
    ∃ wf ls, train_loop X Y_T eps E w = some (wf, ls) ∧ ls.length = E ∧
      ∀ i, i < E → ∃ wi g L, params_after X Y_T eps w i = some wi ∧
        back_propagation X Y_T wi = some (g, L) ∧
        params_after X Y_T eps w (i + 1) = some (update_weights eps wi g) ∧
        ls.getD i 0 = L := by
  intro E
  induction E with
  | zero =>
    intro w _ _ _
    exact ⟨w, [], rfl, rfl, fun i hi => absurd hi (by omega)⟩
  | succ E ih =>
    intro w h1 h2 h3
    have hbp := back_propagation_eq X Y_T w hYT h3
    have hgW1 := bp_dLdW1_length X Y_T w hX hYT h3 h1 h2
    have hgb1 := bp_dLdb1_length X Y_T w hX hYT h3 h1 h2
    have hgW2 := bp_dLdW2_length X Y_T w hX h1 h2
    obtain ⟨hu1, hu2, hu3⟩ := update_keeps_shapes eps w
      ⟨bp_dLdW1 X Y_T w, bp_dLdb1 X Y_T w, bp_dLdW2 X Y_T w, bp_dLdb2 X Y_T w⟩
      h1 h2 h3 hgW1 hgb1 hgW2
    obtain ⟨wf, ls, hrun, hlen, hiter⟩ := ih (update_weights eps w
      ⟨bp_dLdW1 X Y_T w, bp_dLdb1 X Y_T w, bp_dLdW2 X Y_T w, bp_dLdb2 X Y_T w⟩) hu1 hu2 hu3
    refine ⟨wf, bpL X Y_T w :: ls, ?_, by simp [hlen], ?_⟩
    · simp [train_loop, hbp, hrun]
    · intro i hi
      cases i with
      | zero =>
        refine ⟨w, _, _, rfl, hbp, ?_, by simp⟩
        simp [params_after, hbp]
      | succ i =>
        obtain ⟨wi, g, L, hpi, hbpi, hpsucc, hls⟩ := hiter i (by omega)
        refine ⟨wi, g, L, ?_, hbpi, ?_, by simpa using hls⟩
        · simp only [params_after, hbp]
          exact hpi
        · simp only [params_after, hbp]
          exact hpsucc

/-- Claim C5: for every nonempty dataset with matching labels, every parameter
set of hidden width 3, every epoch count E and every learning rate, the
training loop runs all E iterations unconditionally — each computing the
gradients on the full dataset at the current parameters, stepping every
parameter by the shared learning rate, and appending that loss — and the
resulting history holds exactly E losses in iteration order. -/
theorem C5_training_loop_runs_all_epochs (X : List (List ℝ)) (Y_T : List ℝ) (eps : ℝ)
    (w : Weights) (E : ℕ) (hX : X ≠ []) (hYT : Y_T.length = X.length)
    (hW1 : w.W1.length = 3) (hb1 : w.b1.length = 3) (hW2 : w.W2.length = 3) :
    ∃ wf ls, train_loop X Y_T eps E w = some (wf, ls) ∧ ls.length = E ∧
      ∀ i, i < E → ∃ wi g L, params_after X Y_T eps w i = some wi ∧
        back_propagation X Y_T wi = some (g, L) ∧
        params_after X Y_T eps w (i + 1) = some (update_weights eps wi g) ∧
        ls.getD i 0 = L :=
  train_loop_ok X Y_T eps hX hYT E w hW1 hb1 hW2

/-- Witness for claim C5: two epochs on the concrete scenario. -/
theorem C5_training_loop_runs_all_epochs_witness :
    ∃ wf ls, train_loop scenX [1] 1 2 zeroWeights = some (wf, ls) ∧ ls.length = 2 ∧
      ∀ i, i < 2 → ∃ wi g L, params_after scenX [1] 1 zeroWeights i = some wi ∧
        back_propagation scenX [1] wi = some (g, L) ∧
        params_after scenX [1] 1 zeroWeights (i + 1) = some (update_weights 1 wi g) ∧
        ls.getD i 0 = L :=
  C5_training_loop_runs_all_epochs scenX [1] 1 zeroWeights 2 (by simp [scenX])
    (by simp [scenX]) (by simp [zeroWeights]) (by simp [zeroWeights])
    (by simp [zeroWeights])

/-- Claim C10 as amended: the loss appended at iteration i is the one
back_propagation computes at the parameters as they stood before that
iteration, after i - 1 updates; hence the last history entry is the loss of
the next-to-last parameter state, which need not be — and for a typical
nonzero learning rate is not — the loss of the final returned parameters. -/
theorem C10_loss_recorded_before_update (X : List (List ℝ)) (Y_T : List ℝ) (eps : ℝ)
    (w : Weights) (E : ℕ) (hX : X ≠ []) (hYT : Y_T.length = X.length)
    (hW1 : w.W1.length = 3) (hb1 : w.b1.length = 3) (hW2 : w.W2.length = 3) :
    ∃ wf ls, train_loop X Y_T eps E w = some (wf, ls) ∧ ls.length = E ∧
      ∀ i, i < E → ∃ wi g L, params_after X Y_T eps w i = some wi ∧
        back_propagation X Y_T wi = some (g, L) ∧ ls.getD i 0 = L := by
  obtain ⟨wf, ls, h1, h2, h3⟩ := train_loop_ok X Y_T eps hX hYT E w hW1 hb1 hW2
  refine ⟨wf, ls, h1, h2, fun i hi => ?_⟩
  obtain ⟨wi, g, L, ha, hb, _, hd⟩ := h3 i hi
  exact ⟨wi, g, L, ha, hb, hd⟩

/-- Witness for the amended claim C10: one epoch on the concrete scenario. -/
theorem C10_loss_recorded_before_update_witness :
    ∃ wf ls, train_loop scenX [1] 1 1 zeroWeights = some (wf, ls) ∧ ls.length = 1 ∧
      ∀ i, i < 1 → ∃ wi g L, params_after scenX [1] 1 zeroWeights i = some wi ∧
        back_propagation scenX [1] wi = some (g, L) ∧ ls.getD i 0 = L :=
  C10_loss_recorded_before_update scenX [1] 1 zeroWeights 1 (by simp [scenX])
    (by simp [scenX]) (by simp [zeroWeights]) (by simp [zeroWeights])
    (by simp [zeroWeights])

/-- Counterexample for claim C10 as stated: a one-epoch run with learning rate
zero returns the initial parameters unchanged, and its single — hence last —
history entry is exactly the loss back_propagation reports at those final
returned parameters, so the last entry can be the loss of the final
parameters. -/
theorem C10_last_loss_counterexample :
    train_loop scenX [1] 0 1 zeroWeights = some (zeroWeights, [-Real.log (1 / 2)]) ∧
    (back_propagation scenX [1] zeroWeights).map Prod.snd = some (-Real.log (1 / 2)) := by
  have hbp := back_propagation_eq scenX [1] zeroWeights (by simp [scenX])
    (by simp [zeroWeights])
  have hY : fwdY scenX zeroWeights = [1 / 2] := by
    simp [fwdY, forward_propagation, scenX, zeroWeights, dotp, sigmoid_zero]
  have hL : bpL scenX [1] zeroWeights = -Real.log (1 / 2) := by
    unfold bpL crossEntropyLoss
    rw [hY]
    norm_num [scenX]
  have hgW1 := bp_dLdW1_eq scenX [1] zeroWeights (by simp [scenX]) (by simp [scenX])
    (by simp [scenX]) (by simp [zeroWeights]) (by simp [zeroWeights]) (by simp [zeroWeights])
  have hgb1 := bp_dLdb1_eq scenX [1] zeroWeights (by simp [scenX]) (by simp [scenX])
    (by simp [zeroWeights]) (by simp [zeroWeights]) (by simp [zeroWeights])
  have hgW2 := bp_dLdW2_eq scenX [1] zeroWeights (by simp [scenX]) (by simp [scenX])
    (by simp [zeroWeights]) (by simp [zeroWeights])
  have hupd : update_weights 0 zeroWeights
      ⟨bp_dLdW1 scenX [1] zeroWeights, bp_dLdb1 scenX [1] zeroWeights,
        bp_dLdW2 scenX [1] zeroWeights, bp_dLdb2 scenX [1] zeroWeights⟩ = zeroWeights := by
    rw [update_weights, hgW1, hgb1, hgW2]
    simp [zeroWeights, List.range_succ]
  constructor
  · simp [train_loop, hbp, hupd, hL]
  · rw [hbp, Option.map_some', hL]

/-! Batch replication: the backward stages on a batch made of one example
repeated N times. -/

theorem getD_ge {α : Type _} (l : List α) (d : α) {n : ℕ} (h : l.length ≤ n) :
    l.getD n d = d := by
  simp [List.getD_eq_getElem?_getD, List.getElem?_eq_none h]

theorem fwdZ1_replicate (x : List ℝ) (w : Weights) (N : ℕ) :
    fwdZ1 (List.replicate N x) w = List.replicate N (rowZ1 x w) := by
  simp [fwdZ1, forward_propagation, rowZ1]

theorem fwdH_replicate (x : List ℝ) (w : Weights) (N : ℕ) :
    fwdH (List.replicate N x) w = List.replicate N (rowH x w) := by
  simp [fwdH, forward_propagation, rowH, rowZ1]

theorem fwdZ2_replicate (x : List ℝ) (w : Weights) (N : ℕ) :
    fwdZ2 (List.replicate N x) w = List.replicate N (valZ2 x w) := by
  simp [fwdZ2, forward_propagation, valZ2, rowH, rowZ1]

theorem fwdY_replicate (x : List ℝ) (w : Weights) (N : ℕ) :
    fwdY (List.replicate N x) w = List.replicate N (valY x w) := by
  simp [fwdY, forward_propagation, valY, valZ2, rowH, rowZ1]

theorem bp_dLdY_replicate (x : List ℝ) (yt : ℝ) (w : Weights) (N : ℕ) :
    bp_dLdY (List.replicate N x) (List.replicate N yt) w =
      List.replicate N
        (1 / (N : ℝ) * ((valY x w - yt) / (valY x w * (1 - valY x w)))) := by
  unfold bp_dLdY dLdY_stage
  rw [fwdY_replicate, List.zipWith_replicate]
  simp

theorem bp_dLdZ2_replicate (x : List ℝ) (yt : ℝ) (w : Weights) (N : ℕ) :
    bp_dLdZ2 (List.replicate N x) (List.replicate N yt) w =
      List.replicate N (dval x yt w N) := by
  unfold bp_dLdZ2 dLdZ2_stage
  rw [bp_dLdY_replicate, fwdZ2_replicate, List.zipWith_replicate]
  simp [dval]

theorem bp_dLdZ2_single (x : List ℝ) (yt : ℝ) (w : Weights) :
    bp_dLdZ2 [x] [yt] w = [dval x yt w 1] := by
  simpa using bp_dLdZ2_replicate x yt w 1

theorem bp_dLdH_replicate (x : List ℝ) (yt : ℝ) (w : Weights) (N : ℕ) :
    bp_dLdH (List.replicate N x) (List.replicate N yt) w =
      List.replicate N (w.W2.map (fun t => dval x yt w N * t)) := by
  unfold bp_dLdH outerProd
  rw [bp_dLdZ2_replicate]
  simp

theorem bp_dLdZ1_replicate (x : List ℝ) (yt : ℝ) (w : Weights) (N : ℕ) :
    bp_dLdZ1 (List.replicate N x) (List.replicate N yt) w =
      List.replicate N (row_dZ1 x yt w N) := by
  unfold bp_dLdZ1 dLdZ1_stage
  rw [bp_dLdH_replicate, fwdZ1_replicate, List.zipWith_replicate]
  simp [row_dZ1]

theorem bp_dLdZ1_single (x : List ℝ) (yt : ℝ) (w : Weights) :
    bp_dLdZ1 [x] [yt] w = [row_dZ1 x yt w 1] := by
  simpa using bp_dLdZ1_replicate x yt w 1

theorem fwdH_single (x : List ℝ) (w : Weights) : fwdH [x] w = [rowH x w] := by
  simpa using fwdH_replicate x w 1

theorem row_dZ1_length (x : List ℝ) (yt : ℝ) (w : Weights) (N : ℕ) :
    (row_dZ1 x yt w N).length = min w.W2.length (rowZ1 x w).length := by
  simp [row_dZ1]

theorem dval_scale (x : List ℝ) (yt : ℝ) (w : Weights) (N : ℕ) (h : 1 ≤ N) :
    (N : ℝ) * dval x yt w N = dval x yt w 1 := by
  unfold dval
  have hne : (N : ℝ) ≠ 0 := Nat.cast_ne_zero.mpr (by omega)
  field_simp
  exact mul_div_mul_left _ _ hne

theorem row_dZ1_scale (x : List ℝ) (yt : ℝ) (w : Weights) (N : ℕ) (h : 1 ≤ N) (j : ℕ) :
    (N : ℝ) * (row_dZ1 x yt w N).getD j 0 = (row_dZ1 x yt w 1).getD j 0 := by
  by_cases hj : j < min w.W2.length (rowZ1 x w).length
  · have hj1 : j < w.W2.length := lt_of_lt_of_le hj (min_le_left _ _)
    have hj2 : j < (rowZ1 x w).length := lt_of_lt_of_le hj (min_le_right _ _)
    unfold row_dZ1
    rw [getD_zipWith _ _ _ 0 0 0 (by simpa) hj2,
      getD_zipWith _ _ _ 0 0 0 (by simpa) hj2,
      getD_map _ _ 0 0 hj1, getD_map _ _ 0 0 hj1]
    rw [← dval_scale x yt w N h]
    ring
  · have h1 : (row_dZ1 x yt w N).length ≤ j := by rw [row_dZ1_length]; omega
    have h2 : (row_dZ1 x yt w 1).length ≤ j := by rw [row_dZ1_length]; omega
    rw [getD_ge _ _ h1, getD_ge _ _ h2]
    ring

theorem matTvec_replicate_scale (aN a1 : List ℝ) (vN v1 : ℝ) (N : ℕ) (h : 1 ≤ N)
    (hlen : aN.length = a1.length)
    (hent : ∀ j, (N : ℝ) * (aN.getD j 0 * vN) = a1.getD j 0 * v1) :
    matTvec (List.replicate N aN) (List.replicate N vN) =
      matTvec (List.replicate 1 a1) (List.replicate 1 v1) := by
  rw [matTvec_eq, matTvec_eq, headLen_replicate aN h, headLen_replicate a1 (le_refl 1),
    hlen]
  refine List.map_congr_left (fun j _ => ?_)
  simp only [List.length_replicate, min_self]
  have hls : ∀ n ∈ Finset.range N,
      ((List.replicate N aN).getD n []).getD j 0 * (List.replicate N vN).getD n 0 =
        aN.getD j 0 * vN := by
    intro n hn
    rw [Finset.mem_range] at hn
    rw [getD_replicate_of_lt _ _ hn, getD_replicate_of_lt _ _ hn]
  rw [Finset.sum_congr rfl hls, Finset.sum_const, Finset.card_range, nsmul_eq_mul,
    Finset.sum_range_one, getD_replicate_of_lt _ _ Nat.zero_lt_one,
    getD_replicate_of_lt _ _ Nat.zero_lt_one]
  exact hent j

theorem matTmat_replicate_scale (aN a1 b : List ℝ) (N : ℕ) (h : 1 ≤ N)
    (hlen : aN.length = a1.length)
    (hent : ∀ j, (N : ℝ) * aN.getD j 0 = a1.getD j 0) :
    matTmat (List.replicate N aN) (List.replicate N b) =
      matTmat (List.replicate 1 a1) (List.replicate 1 b) := by
  rw [matTmat_eq, matTmat_eq, headLen_replicate aN h, headLen_replicate a1 (le_refl 1),
    headLen_replicate b h, headLen_replicate b (le_refl 1), hlen]
  refine List.map_congr_left (fun j _ => ?_)
  refine List.map_congr_left (fun k _ => ?_)
  simp only [List.length_replicate, min_self]
  have hls : ∀ n ∈ Finset.range N,
      ((List.replicate N aN).getD n []).getD j 0 *
        ((List.replicate N b).getD n []).getD k 0 = aN.getD j 0 * b.getD k 0 := by
    intro n hn
    rw [Finset.mem_range] at hn
    rw [getD_replicate_of_lt _ _ hn, getD_replicate_of_lt _ _ hn]
  rw [Finset.sum_congr rfl hls, Finset.sum_const, Finset.card_range, nsmul_eq_mul,
    Finset.sum_range_one, getD_replicate_of_lt _ _ Nat.zero_lt_one,
    getD_replicate_of_lt _ _ Nat.zero_lt_one]
  rw [← hent j]
  ring

theorem dotp_replicate_scale (vN v1 : ℝ) (N : ℕ) (h : 1 ≤ N) (hv : (N : ℝ) * vN = v1) :
    dotp (List.replicate N vN) (List.replicate N 1) =
      dotp (List.replicate 1 v1) (List.replicate 1 1) := by
  rw [dotp_eq, dotp_eq]
  simp only [List.length_replicate, min_self]
  have hls : ∀ n ∈ Finset.range N,
      (List.replicate N vN).getD n 0 * (List.replicate N (1 : ℝ)).getD n 0 = vN * 1 := by
    intro n hn
    rw [Finset.mem_range] at hn
    rw [getD_replicate_of_lt _ _ hn, getD_replicate_of_lt _ _ hn]
  rw [Finset.sum_congr rfl hls, Finset.sum_const, Finset.card_range, nsmul_eq_mul,
    Finset.sum_range_one, getD_replicate_of_lt _ _ Nat.zero_lt_one,
    getD_replicate_of_lt _ _ Nat.zero_lt_one]
  rw [← hv]
  ring

/-- Claim C6: stacking one example N times in the batch, with its label
repeated accordingly, yields exactly the gradient tensors of the
single-example batch — the batch-mean factor 1 over N cancels the N-fold
repetition in every summed stage. -/
theorem C6_batch_size_invariance (x : List ℝ) (yt : ℝ) (w : Weights) (N : ℕ)
    (hN : 1 ≤ N) :
    (back_propagation (List.replicate N x) (List.replicate N yt) w).map Prod.fst =
      (back_propagation [x] [yt] w).map Prod.fst := by
  by_cases h3 : w.W2.length = 3
  · rw [back_propagation_eq _ _ _ (by simp) h3,
      back_propagation_eq _ _ _ (by simp) h3,
      Option.map_some', Option.map_some']
    congr 1
    have hW1c : bp_dLdW1 (List.replicate N x) (List.replicate N yt) w =
        bp_dLdW1 [x] [yt] w := by
      unfold bp_dLdW1
      rw [bp_dLdZ1_replicate x yt w N, bp_dLdZ1_single x yt w,
        show ([row_dZ1 x yt w 1] : List (List ℝ)) = List.replicate 1 (row_dZ1 x yt w 1)
          from rfl,
        show ([x] : List (List ℝ)) = List.replicate 1 x from rfl]
      exact matTmat_replicate_scale (row_dZ1 x yt w N) (row_dZ1 x yt w 1) x N hN
        (by rw [row_dZ1_length, row_dZ1_length]) (row_dZ1_scale x yt w N hN)
    have hb1c : bp_dLdb1 (List.replicate N x) (List.replicate N yt) w =
        bp_dLdb1 [x] [yt] w := by
      unfold bp_dLdb1
      rw [bp_dLdZ1_replicate x yt w N, bp_dLdZ1_single x yt w]
      simp only [List.length_replicate, List.length_singleton]
      rw [show ([row_dZ1 x yt w 1] : List (List ℝ)) = List.replicate 1 (row_dZ1 x yt w 1)
          from rfl]
      refine matTvec_replicate_scale (row_dZ1 x yt w N) (row_dZ1 x yt w 1) 1 1 N hN
        (by rw [row_dZ1_length, row_dZ1_length]) (fun j => ?_)
      rw [mul_one, mul_one]
      exact row_dZ1_scale x yt w N hN j
    have hW2c : bp_dLdW2 (List.replicate N x) (List.replicate N yt) w =
        bp_dLdW2 [x] [yt] w := by
      unfold bp_dLdW2
      rw [fwdH_replicate x w N, fwdH_single x w, bp_dLdZ2_replicate x yt w N,
        bp_dLdZ2_single x yt w,
        show ([rowH x w] : List (List ℝ)) = List.replicate 1 (rowH x w) from rfl,
        show ([dval x yt w 1] : List ℝ) = List.replicate 1 (dval x yt w 1) from rfl]
      refine matTvec_replicate_scale (rowH x w) (rowH x w) (dval x yt w N)
        (dval x yt w 1) N hN rfl (fun j => ?_)
      rw [← dval_scale x yt w N hN]
      ring
    have hb2c : bp_dLdb2 (List.replicate N x) (List.replicate N yt) w =
        bp_dLdb2 [x] [yt] w := by
      unfold bp_dLdb2
      rw [bp_dLdZ2_replicate x yt w N, bp_dLdZ2_single x yt w]
      simp only [List.length_replicate, List.length_singleton]
      rw [show ([dval x yt w 1] : List ℝ) = List.replicate 1 (dval x yt w 1) from rfl]
      exact dotp_replicate_scale (dval x yt w N) (dval x yt w 1) N hN
        (dval_scale x yt w N hN)
    rw [hW1c, hb1c, hW2c, hb2c]
  · rw [back_propagation_none_of_badW2 _ _ _ (by simp) h3,
      back_propagation_none_of_badW2 _ _ _ (by simp) h3]

/-- Witness for claim C6 with the scenario example stacked twice. -/
theorem C6_batch_size_invariance_witness :
    (back_propagation (List.replicate 2 [(1 : ℝ), 0]) (List.replicate 2 1)
        zeroWeights).map Prod.fst =
      (back_propagation [[(1 : ℝ), 0]] [1] zeroWeights).map Prod.fst :=
  C6_batch_size_invariance [(1 : ℝ), 0] 1 zeroWeights 2 (by norm_num)

end Backprop
